import Mathlib

/-!
Shallow embedding of `bxffour/nstats` (Go), file `internal/stats/stats.go`.

Machine integers (`uint64`, `uint32`) are modelled as `ℕ` with explicit
`% 2^64` where the Go code can wrap. `float64` arithmetic is modelled by
exact rationals, extended with the IEEE special values (`+Inf`, `-Inf`,
`NaN`) where the code can produce them (division by a zero period);
`float64` rounding of exactly-representable intermediate values is the
identity, which covers every concrete input used below. `time.Time`
instants are modelled as rational seconds, and `time.Duration.Seconds()`
as rational subtraction.
-/

namespace NStats

/-- The modulus `2^64` of Go's `uint64` arithmetic. -/
def U64 : ℕ := 2 ^ 64

/-- Go struct `datarec { rxPackets, rxBytes uint64 }`. Fields are naturals,
kept below `U64` by all operations that write them. -/
structure datarec where
  rxPackets : ℕ
  rxBytes : ℕ
  deriving Repr, DecidableEq

/-- Little-endian value of a byte list: byte `i` has weight `256^i`.
This is the number `binary.Read(..., binary.LittleEndian, &x)` assembles
from the consumed bytes. -/
def leVal (bs : List ℕ) : ℕ :=
  bs.foldr (fun b acc => b + 256 * acc) 0

/-- Go method `(*datarec).UnmarshalBinary`: wraps the input in a
`bytes.Buffer` and issues two `binary.Read` calls for 8-byte little-endian
unsigned integers, first `rxPackets` then `rxBytes`. `binary.Read` errors
(`io.EOF` / `io.ErrUnexpectedEOF`) when fewer than 8 bytes remain; on
success it consumes exactly 8 bytes. Bytes are naturals `< 256`. -/
def UnmarshalBinary (p : List ℕ) : Except String datarec :=
  if p.length < 8 then .error "EOF"
  else
    let rxPackets := leVal (p.take 8)
    let rest := p.drop 8
    if rest.length < 8 then .error "unexpected EOF"
    else .ok ⟨rxPackets, leVal (rest.take 8)⟩

/-- Go struct `record { timestamp time.Time; total datarec }`. -/
structure record where
  timestamp : ℚ
  total : datarec
  deriving Repr, DecidableEq

/-- Go struct `StatsRecord { Records [5]record }`. -/
structure StatsRecord where
  Records : Fin 5 → record

instance : DecidableEq StatsRecord := fun a b =>
  decidable_of_iff (a.Records = b.Records)
    ⟨fun h => by cases a; cases b; simpa using h, fun h => by rw [h]⟩

/-- The per-CPU summation loop inside `getMapVal`: starting from a
zero-valued `valueSum`, add each CPU's `rxPackets` and `rxBytes`
(`uint64` addition, wrapping mod `2^64`). -/
def sumRecs (l : List datarec) : datarec :=
  l.foldl
    (fun acc d =>
      ⟨(acc.rxPackets + d.rxPackets) % U64, (acc.rxBytes + d.rxBytes) % U64⟩)
    ⟨0, 0⟩

/-- Go `getMapVal(key, m, stat)`: writes `time.Now()` (passed here as
`now`) into `stat.Records[key].timestamp`, then performs the map lookup;
on lookup error it returns the error (the timestamp write has already
happened). On success it sums the per-CPU values and writes the totals.
The external eBPF map is modelled as a lookup function `m` from key to
either an error or the per-CPU `datarec` list. The Go function mutates
`stat` through a pointer; here the updated record is returned alongside
`some err`/`none`. -/
def getMapVal (key : Fin 5) (now : ℚ) (m : Fin 5 → Except String (List datarec))
    (stat : StatsRecord) : StatsRecord × Option String :=
  let stat1 : StatsRecord :=
    ⟨Function.update stat.Records key
      { stat.Records key with timestamp := now }⟩
  match m key with
  | .error e => (stat1, some e)
  | .ok perCpuValues =>
      (⟨Function.update stat1.Records key ⟨now, sumRecs perCpuValues⟩⟩, none)

/-- The loop body of `collectStats`: process the given keys in order,
stopping at the first `getMapVal` error. `nows` gives the `time.Now()`
value observed at each slot. -/
def collectStatsAux (nows : Fin 5 → ℚ) (m : Fin 5 → Except String (List datarec)) :
    List (Fin 5) → StatsRecord → StatsRecord × Option String
  | [], s => (s, none)
  | k :: ks, s =>
      match getMapVal k (nows k) m s with
      | (s1, none) => collectStatsAux nows m ks s1
      | (s1, some e) => (s1, some e)

/-- Go `(*StatsRecord).collectStats(sMap)`: `for action = 0; action < 5;
action++ { getMapVal(action, sMap, rec) }`, returning the first error. -/
def collectStats (nows : Fin 5 → ℚ) (m : Fin 5 → Except String (List datarec))
    (rec : StatsRecord) : StatsRecord × Option String :=
  collectStatsAux nows m [0, 1, 2, 3, 4] rec

/-- Go `action2str(act uint) string`: the 0–4 switch returning the slot
names; the `default` branch calls `log.Panic`, modelled as `none`. -/
def action2str (act : ℕ) : Option String :=
  match act with
  | 0 => some "XDP_ABORT"
  | 1 => some "XDP_DROP"
  | 2 => some "XDP_PASS"
  | 3 => some "XDP_TX"
  | 4 => some "XDP_REDIRECT"
  | _ => none

/-- Go struct `stats`: the five formatted cell strings for one slot. -/
structure stats where
  Packets : String
  PPs : String
  Bytes : String
  BPs : String
  Period : String
  deriving Repr, DecidableEq

/-- A `float64` value as far as this code can produce one: an exact
finite rational or one of the IEEE special values. -/
inductive FVal where
  | finite (q : ℚ)
  | inf
  | neginf
  | nan
  deriving Repr, DecidableEq

/-- IEEE `float64` division `d / p` where both operands are finite:
a nonzero divisor gives the exact quotient (all quotients taken in this
development are exactly representable); a zero divisor gives `±Inf` for a
nonzero dividend and `NaN` for `0 / 0`. -/
def fdiv (d p : ℚ) : FVal :=
  if p = 0 then
    if 0 < d then .inf else if d < 0 then .neginf else .nan
  else .finite (d / p)

/-- Division of a `float64` by a positive finite constant: special values
are preserved. -/
def fdivPos (v : FVal) (c : ℚ) : FVal :=
  match v with
  | .finite q => .finite (q / c)
  | w => w

/-- IEEE comparison `v < q` against a finite constant: `NaN` compares
false, `+Inf` is not below any finite value, `-Inf` is below all. -/
def fvalLt (v : FVal) (q : ℚ) : Bool :=
  match v with
  | .finite x => x < q
  | .inf => false
  | .neginf => true
  | .nan => false

/-- Round half to even on rationals, the rounding `fmt`'s `%.0f` applies. -/
def rhe (q : ℚ) : ℤ :=
  let f := ⌊q⌋
  let frac := q - f
  if frac < 1 / 2 then f
  else if 1 / 2 < frac then f + 1
  else if f % 2 = 0 then f else f + 1

/-- Left-pad a string with spaces to the given width (Go's default
right-justified numeric verb padding). -/
def padLeft (w : ℕ) (s : String) : String :=
  String.mk (List.replicate (w - s.length) ' ') ++ s

/-- Go `fmt.Sprintf("%<w>.0f", v)`: the special values print as `+Inf`,
`-Inf`, `NaN`; a finite value prints as its nearest integer (ties to
even), all right-justified to width `w`. -/
def fmtF0 (w : ℕ) (v : FVal) : String :=
  match v with
  | .finite q => padLeft w (toString (rhe q))
  | .inf => padLeft w "+Inf"
  | .neginf => padLeft w "-Inf"
  | .nan => padLeft w "NaN"

/-- Go `fmt.Sprintf("%f", q)` on a finite value: fixed six decimal
places. Negative values print the sign before the rounded magnitude. -/
def fmtF6 (q : ℚ) : String :=
  let sign := if q < 0 then "-" else ""
  let n := (rhe (|q| * 1000000)).toNat
  let frac := toString (n % 1000000)
  sign ++ toString (n / 1000000) ++ "." ++
    String.mk (List.replicate (6 - frac.length) '0') ++ frac

/-- Go `calculateSpeed(bytes, period float64)`: computes
`kbps := bytes * 8 / period / 1000` and renders `"%6.0f Kbits/s"` when
`kbps < 1000`, else `"%6.0f Mbits/s"` of `kbps / 1000`. -/
def calculateSpeed (bytes period : ℚ) : String :=
  let kbps := fdivPos (fdiv (bytes * 8) period) 1000
  if fvalLt kbps 1000 then fmtF0 6 kbps ++ " Kbits/s"
  else fmtF0 6 (fdivPos kbps 1000) ++ " Mbits/s"

/-- Go `formatBytes(bytes uint64)`: `kbs := bytes / 1024` (integer
truncation); below 1024 render `"%d KBs"`, else `"%d MBs"` of
`kbs / 1024`. -/
def formatBytes (bytes : ℕ) : String :=
  let kbs := bytes / 1024
  if kbs < 1024 then toString kbs ++ " KBs"
  else toString (kbs / 1024) ++ " MBs"

/-- The packet-rate expression of `calcStats` for one slot:
`float64(rec.total.rxPackets - prev.total.rxPackets) / period` — the
subtraction is `uint64` and wraps mod `2^64`, and the division is
`float64` division by the elapsed period in seconds. -/
def calcPps (prevR curR : record) : FVal :=
  fdiv (((curR.total.rxPackets + U64 - prevR.total.rxPackets) % U64 : ℕ) : ℚ)
    (curR.timestamp - prevR.timestamp)

/-- The byte-delta expression of `calcStats` for one slot:
`float64(rec.total.rxBytes - prev.total.rxBytes)` with wrapping `uint64`
subtraction. -/
def calcByteDelta (prevR curR : record) : ℕ :=
  (curR.total.rxBytes + U64 - prevR.total.rxBytes) % U64

/-- Go `calcStats(prev, recv)`: for each slot `i`, the elapsed period is
`recv.Records[i].timestamp − prev.Records[i].timestamp` in seconds, and
the five cells are formatted from the totals, the packet rate, the byte
delta and the period exactly as in the source. -/
def calcStats (prev recv : StatsRecord) : Fin 5 → stats := fun i =>
  let curR := recv.Records i
  let prevR := prev.Records i
  let period := curR.timestamp - prevR.timestamp
  let pps := calcPps prevR curR
  let bytes := calcByteDelta prevR curR
  let speed := calculateSpeed (bytes : ℚ) period
  { Packets := toString curR.total.rxPackets
    PPs := fmtF0 10 pps ++ " pps"
    Bytes := formatBytes curR.total.rxBytes
    BPs := speed
    Period := fmtF6 period }

/-! ## Dashboard loop (`RenderStats`)

The `select` in `RenderStats` multiplexes the 1-second ticker and the
terminal event stream; the sequence of events it observes is modelled as
an explicit list. Each successful `collectStats` call reads the external
map at some instant, so the sequence of snapshots the calls would produce
is modelled as a stream `src : ℕ → StatsRecord` consumed in call order
(collection errors are treated separately, in the `collectStats`
theorems). -/

/-- One event the `select` statement can receive: a ticker tick or a
terminal input event with its `ID` string. -/
inductive Ev where
  | tick
  | input (id : String)
  deriving Repr, DecidableEq

/-- The `for { ... select { ... } }` loop of `RenderStats`, recording the
`(prev, recv)` snapshot pair passed to `calcStats` at each tick. Each
iteration declares fresh `recv`/`prev` and calls `recv.collectStats` at
the top (consuming the next snapshot from the stream); on a tick it copies
`recv` into `prev`, collects again (consuming another snapshot) and
computes rates; on input `"q"` or `"<C-c>"` it returns; on any other input
it just re-enters the loop. `n` is the index of the next unconsumed
snapshot. -/
def runLoop (src : ℕ → StatsRecord) : List Ev → ℕ → List (StatsRecord × StatsRecord)
  | [], _ => []
  | Ev.tick :: rest, n => (src n, src (n + 1)) :: runLoop src rest (n + 2)
  | Ev.input id :: rest, n =>
      if id = "q" ∨ id = "<C-c>" then [] else runLoop src rest (n + 1)

/-- The `(prev, recv)` pairs fed to `calcStats` over a run of
`RenderStats` that starts with an empty history. -/
def tickPairs (src : ℕ → StatsRecord) (evs : List Ev) :
    List (StatsRecord × StatsRecord) :=
  runLoop src evs 0

/-! ## Table (`RenderStats` / `updateTable`)

The termui table is modelled by its `Rows` field, a list of rows of cell
strings; `RenderStats` builds it once and `updateTable` mutates cells in
place. -/

/-- The `table.Rows` literal assigned in `RenderStats`: one header row and
five empty data rows, each of six cells. -/
def initRows : List (List String) :=
  [["Action", "Total Packets", "Packets Per Sec", "Total Bytes",
    "Speed (Mbps)", "Period"],
   ["", "", "", "", "", ""],
   ["", "", "", "", "", ""],
   ["", "", "", "", "", ""],
   ["", "", "", "", "", ""],
   ["", "", "", "", "", ""]]

/-- Assignment `rows[r][c] = v`: out-of-range indices leave the rows
unchanged (never exercised; `updateTable` writes rows 1–5, columns 0–5 of
the fixed 6×6 literal). -/
def setCell (rows : List (List String)) (r c : ℕ) (v : String) :
    List (List String) :=
  rows.set r ((rows.getD r []).set c v)

/-- The body of `updateTable`'s loop for one `i`: write the six cells of
row `i+1` — the slot name `action2str(uint(i))` (proved total on 0–4
below, hence the `getD` default is dead) and the five formatted fields. -/
def updateRow (s : stats) (i : ℕ) (rows : List (List String)) :
    List (List String) :=
  let r0 := setCell rows (i + 1) 0 ((action2str i).getD "")
  let r1 := setCell r0 (i + 1) 1 s.Packets
  let r2 := setCell r1 (i + 1) 2 s.PPs
  let r3 := setCell r2 (i + 1) 3 s.Bytes
  let r4 := setCell r3 (i + 1) 4 s.BPs
  setCell r4 (i + 1) 5 s.Period

/-- Go `updateTable(stats, table)`: `for i := 0; i < len(stats); i++`
writes row `i+1` from `stats[i]` and returns the same table. -/
def updateTable (st : Fin 5 → stats) (rows : List (List String)) :
    List (List String) :=
  ([0, 1, 2, 3, 4] : List (Fin 5)).foldl (fun acc i => updateRow (st i) i.val acc) rows

/-- The table contents after any sequence of per-tick updates. -/
def tableAfter (updates : List (Fin 5 → stats)) : List (List String) :=
  updates.foldl (fun acc st => updateTable st acc) initRows

/-! ## Concrete inputs used in the theorems below -/

/-- A snapshot of the end-to-end example: every slot at `t = 0` with 100
packets and 1000 bytes. -/
def prevC6 : StatsRecord := ⟨fun _ => ⟨0, 100, 1000⟩⟩

/-- A snapshot of the end-to-end example: every slot at `t = 1 s` with
150 packets and 2000 bytes. -/
def curC6 : StatsRecord := ⟨fun _ => ⟨1, 150, 2000⟩⟩

/-- A snapshot stream in which collection `n` reads `n` packets, `n`
bytes, at time `n`; distinct calls yield distinct snapshots. -/
def srcC3 (n : ℕ) : StatsRecord := ⟨fun _ => ⟨n, n, n⟩⟩

/-- An all-zero initial `StatsRecord` (Go's zero value). -/
def zeroRec : StatsRecord := ⟨fun _ => ⟨0, 0, 0⟩⟩

/-- A map whose keys 0 and 1 hold two per-CPU records and whose key 2
(and above) fails to look up. -/
def failMap2 : Fin 5 → Except String (List datarec) := fun k =>
  if k.val < 2 then .ok [⟨2, 20⟩, ⟨3, 30⟩] else .error "lookup failed"

/-- Per-slot `time.Now()` instants for the collection theorems. -/
def nowsA : Fin 5 → ℚ := fun i => 10 + i.val

/-- A concrete formatted-cells value for the table theorems. -/
def statsA : stats := ⟨"1", "2", "3", "4", "5"⟩

/-- A per-slot update writing `statsA` into every data row. -/
def updA : Fin 5 → stats := fun _ => statsA

/-- A 17-byte, all-zero record buffer. -/
def buf17 : List ℕ := List.replicate 17 0

/-- The 16-byte buffer of the decoding example: packets 1, bytes 2. -/
def buf16 : List ℕ := [1, 0, 0, 0, 0, 0, 0, 0, 2, 0, 0, 0, 0, 0, 0, 0]

/-- Buffer `buf16` with one trailing byte. -/
def buf16t : List ℕ := buf16 ++ [7]

/-! ## Decoder lemmas -/

lemma leVal_cons (b : ℕ) (t : List ℕ) : leVal (b :: t) = b + 256 * leVal t :=
  rfl

/-- Function `leVal` assembles the little-endian positional value of its bytes. -/
lemma leVal_eq_sum (l : List ℕ) :
    leVal l = ∑ i ∈ Finset.range l.length, l.getD i 0 * 256 ^ i := by
  induction l with
  | nil => simp [leVal]
  | cons b t ih =>
      rw [leVal_cons, ih, List.length_cons, Finset.sum_range_succ']
      simp only [List.getD_cons_succ, List.getD_cons_zero, pow_zero, mul_one]
      rw [add_comm, Finset.mul_sum]
      congr 1
      exact Finset.sum_congr rfl fun i _ => by ring

/-- Any buffer shorter than 16 bytes makes `UnmarshalBinary` fail: one of
the two `binary.Read` calls runs out of bytes. -/
lemma UnmarshalBinary_isOk_eq_false_of_short (p : List ℕ) (h : p.length < 16) :
    (UnmarshalBinary p).isOk = false := by
  unfold UnmarshalBinary
  by_cases h8 : p.length < 8
  · rw [if_pos h8]; rfl
  · rw [if_neg h8, if_pos (by simp [List.length_drop]; omega)]; rfl

/-- Any buffer of at least 16 bytes decodes: the first `binary.Read`
consumes bytes 0–7 into `rxPackets`, the second bytes 8–15 into
`rxBytes`. -/
lemma UnmarshalBinary_ok_of_long (p : List ℕ) (h : 16 ≤ p.length) :
    UnmarshalBinary p = .ok ⟨leVal (p.take 8), leVal ((p.drop 8).take 8)⟩ := by
  unfold UnmarshalBinary
  rw [if_neg (by omega), if_neg (by simp [List.length_drop]; omega)]

/-- With at least `n + k` bytes, entry `n + i` of the buffer is entry `i`
of `(p.drop n).take k` for `i < k`. -/
lemma getD_drop_take (p : List ℕ) (n k i : ℕ) (hi : i < k) :
    ((p.drop n).take k).getD i 0 = p.getD (n + i) 0 := by
  rw [List.getD_eq_getElem?_getD, List.getD_eq_getElem?_getD,
    List.getElem?_take, if_pos hi, List.getElem?_drop]

/-- Value of `leVal` on an 8-byte slice starting at `n`, as a positional sum over
the original buffer. -/
lemma leVal_slice (p : List ℕ) (n : ℕ) (h : n + 8 ≤ p.length) :
    leVal ((p.drop n).take 8) = ∑ i ∈ Finset.range 8, p.getD (n + i) 0 * 256 ^ i := by
  rw [leVal_eq_sum]
  have hlen : ((p.drop n).take 8).length = 8 := by
    simp [List.length_take, List.length_drop]; omega
  rw [hlen]
  refine Finset.sum_congr rfl fun i hi => ?_
  rw [getD_drop_take p n 8 i (Finset.mem_range.mp hi)]

/-- C1 is settled as a code bug, so this is the evaluation of the claim's
scenario: with a positive period of 1 s and `current.packets = 50 <
previous.packets = 100`, the `uint64` subtraction in `calcStats` wraps and
the packet rate is the huge value `2^64 − 50`, not a zero/flagged
fallback. -/
theorem calcPps_underflow_on_reset :
    calcPps ⟨0, 100, 1000⟩ ⟨1, 50, 500⟩ = .finite 18446744073709551566 ∧
      calcPps ⟨0, 100, 1000⟩ ⟨1, 50, 500⟩ ≠ .finite 0 := by
  constructor
  · show fdiv (((50 + U64 - 100) % U64 : ℕ) : ℚ) (1 - 0) = _
    norm_num [U64, fdiv]
  · show fdiv (((50 + U64 - 100) % U64 : ℕ) : ℚ) (1 - 0) ≠ _
    norm_num [U64, fdiv]

/-- C2 is settled as a code bug, so this is the evaluation of the claim's
scenario: with equal timestamps (elapsed period 0), `calcStats` divides by
the zero period and the packet rate is IEEE `+Inf` for a positive delta
and `NaN` for a zero delta — its rendered cell reads `"      +Inf pps"` —
rather than the zero rate the spec requires. -/
theorem calcPps_zero_period :
    calcPps ⟨5, 100, 1000⟩ ⟨5, 150, 2000⟩ = .inf ∧
      calcPps ⟨5, 100, 1000⟩ ⟨5, 100, 1000⟩ = .nan ∧
      (calcStats ⟨fun _ => ⟨5, 100, 1000⟩⟩ ⟨fun _ => ⟨5, 150, 2000⟩⟩ 0).PPs
        = "      +Inf pps" := by
  have hinf : calcPps ⟨5, 100, 1000⟩ ⟨5, 150, 2000⟩ = .inf := by
    show fdiv (((150 + U64 - 100) % U64 : ℕ) : ℚ) (5 - 5) = _
    norm_num [U64, fdiv]
  refine ⟨hinf, ?_, ?_⟩
  · show fdiv (((100 + U64 - 100) % U64 : ℕ) : ℚ) (5 - 5) = _
    norm_num [U64, fdiv]
  · show fmtF0 10 (calcPps ⟨5, 100, 1000⟩ ⟨5, 150, 2000⟩) ++ " pps" = _
    rw [hinf]; rfl

/-- C7 counterexample: a 17-byte record is not "exactly the shape of two
8-byte little-endian unsigned integers" (16 bytes), yet `UnmarshalBinary`
accepts it, so the decoder does not reject every record that is not
exactly this shape. -/
theorem UnmarshalBinary_trailing_accepted :
    (UnmarshalBinary buf17).isOk = true ∧ buf17.length ≠ 16 := by
  constructor <;> decide

/-- C7 (amended): decoding reads two 8-byte little-endian unsigned
integers in order (packets, bytes) and fails with an error on every
buffer shorter than 16 bytes; in particular the 16-byte buffer
`{0x01,0,...,0}{0x02,0,...,0}` decodes to `{packets 1, bytes 2}` and a
15-byte buffer fails. (Buffers longer than 16 bytes are accepted, reading
only the first 16 — see the C10 theorem.) -/
theorem UnmarshalBinary_shape :
    (∀ p : List ℕ, p.length < 16 → (UnmarshalBinary p).isOk = false) ∧
      UnmarshalBinary buf16 = .ok ⟨1, 2⟩ ∧
      (UnmarshalBinary (List.replicate 15 0)).isOk = false := by
  exact ⟨fun p h => UnmarshalBinary_isOk_eq_false_of_short p h, rfl, by decide⟩

/-- Witness for the C7 theorem: its universally quantified part applied
to a concrete 11-byte buffer. -/
theorem UnmarshalBinary_shape_witness :
    (UnmarshalBinary (List.replicate 11 3)).isOk = false :=
  UnmarshalBinary_shape.1 (List.replicate 11 3) (by decide)

/-- C10: every buffer of at least 16 bytes decodes successfully, the
packets field is assembled from bytes 0–7 and the bytes field from bytes
8–15, each little-endian (byte `i` weighted `256^i`), and the result
depends only on the first 16 bytes. -/
theorem UnmarshalBinary_long (p : List ℕ) (h : 16 ≤ p.length) :
    UnmarshalBinary p =
      .ok ⟨∑ i ∈ Finset.range 8, p.getD i 0 * 256 ^ i,
        ∑ i ∈ Finset.range 8, p.getD (8 + i) 0 * 256 ^ i⟩ ∧
      UnmarshalBinary p = UnmarshalBinary (p.take 16) := by
  constructor
  · rw [UnmarshalBinary_ok_of_long p h]
    have h1 : leVal (p.take 8) = ∑ i ∈ Finset.range 8, p.getD i 0 * 256 ^ i := by
      have h0 := leVal_slice p 0 (by omega)
      simpa using h0
    have h2 := leVal_slice p 8 (by omega)
    rw [h1, h2]
  · rw [UnmarshalBinary_ok_of_long p h,
      UnmarshalBinary_ok_of_long (p.take 16) (by simp [List.length_take]; omega)]
    simp only [Except.ok.injEq, datarec.mk.injEq]
    constructor
    · rw [List.take_take]; norm_num
    · rw [List.drop_take]; norm_num [List.take_take]

/-- Witness for the C10 theorem: applied to a concrete 17-byte buffer
(`buf16` plus a trailing byte). -/
theorem UnmarshalBinary_long_witness :
    (UnmarshalBinary buf16t =
      .ok ⟨∑ i ∈ Finset.range 8, buf16t.getD i 0 * 256 ^ i,
        ∑ i ∈ Finset.range 8, buf16t.getD (8 + i) 0 * 256 ^ i⟩) ∧
      UnmarshalBinary buf16t = UnmarshalBinary (buf16t.take 16) :=
  UnmarshalBinary_long buf16t (by decide)

/-- C8: `action2str` is total over 0–4, returning the five stable slot
names in order, and hits the fatal `log.Panic` default (modelled `none`)
on every index at least 5. -/
theorem action2str_total :
    (action2str 0 = some "XDP_ABORT" ∧ action2str 1 = some "XDP_DROP" ∧
      action2str 2 = some "XDP_PASS" ∧ action2str 3 = some "XDP_TX" ∧
      action2str 4 = some "XDP_REDIRECT") ∧
      ∀ a : ℕ, 5 ≤ a → action2str a = none := by
  refine ⟨⟨rfl, rfl, rfl, rfl, rfl⟩, fun a ha => ?_⟩
  obtain ⟨n, rfl⟩ : ∃ n, a = n + 5 := ⟨a - 5, by omega⟩
  rfl

/-- Witness for the C8 theorem: its universally quantified part applied
to the out-of-domain index 9. -/
theorem action2str_total_witness : action2str 9 = none :=
  action2str_total.2 9 (by norm_num)

/-! ## Formatting and rate lemmas -/

/-- The `%.0f` rounding is the identity on integers. -/
lemma rhe_intCast (z : ℤ) : rhe (z : ℚ) = z := by
  unfold rhe
  rw [Int.floor_intCast]
  norm_num

lemma fmtF0_int (w : ℕ) (z : ℤ) :
    fmtF0 w (.finite (z : ℚ)) = padLeft w (toString z) := by
  show padLeft w (toString (rhe (z : ℚ))) = padLeft w (toString z)
  rw [rhe_intCast]

/-- Evaluation of `calculateSpeed` on a nonzero period, with the float expressions
resolved to their exact finite values. -/
lemma calculateSpeed_of_kbps (b p : ℚ) (hp : p ≠ 0) :
    calculateSpeed b p =
      if b * 8 / p / 1000 < 1000 then
        fmtF0 6 (.finite (b * 8 / p / 1000)) ++ " Kbits/s"
      else fmtF0 6 (.finite (b * 8 / p / 1000 / 1000)) ++ " Mbits/s" := by
  unfold calculateSpeed
  rw [fdiv, if_neg hp]
  simp [fdivPos, fvalLt]

/-- The concrete 999 Kbit/s rendering: `124875` bytes over one second is
exactly 999 Kbit/s, formatted with `%6.0f`'s width padding. -/
lemma calculateSpeed_eval_999 : calculateSpeed 124875 1 = "   999 Kbits/s" := by
  rw [calculateSpeed_of_kbps 124875 1 (by norm_num)]
  have h : (124875 * 8 / 1 / 1000 : ℚ) = ((999 : ℤ) : ℚ) := by norm_num
  rw [h, if_pos (by norm_num), fmtF0_int]
  decide

/-- C5 counterexample: the rate whose Kbit/s value is exactly 999 renders
as `"   999 Kbits/s"` (the `%6.0f` verb right-justifies to width 6), not
as the claimed string `"999 Kbits/s"`. -/
theorem calculateSpeed_999_not_unpadded :
    calculateSpeed 124875 1 ≠ "999 Kbits/s" := by
  rw [calculateSpeed_eval_999]
  decide

/-- C5 (amended): the unit-scaling thresholds are as claimed — Kbit/s
value 999 stays in the Kbits branch, 1000 switches to Mbits showing 1 —
but the bit-rate strings carry `%6.0f`'s width-6 space padding:
`"   999 Kbits/s"` and `"     1 Mbits/s"`. The byte-total strings are
exactly as claimed: 1023 bytes → `"0 KBs"`, 1024 → `"1 KBs"`,
1024·1024 → `"1 MBs"`, by integer truncation. -/
theorem formatting_thresholds :
    (∀ b p : ℚ, 0 < p → b * 8 / p / 1000 = 999 →
      calculateSpeed b p = "   999 Kbits/s") ∧
      (∀ b p : ℚ, 0 < p → b * 8 / p / 1000 = 1000 →
        calculateSpeed b p = "     1 Mbits/s") ∧
      formatBytes 1023 = "0 KBs" ∧ formatBytes 1024 = "1 KBs" ∧
      formatBytes (1024 * 1024) = "1 MBs" := by
  refine ⟨fun b p hp h => ?_, fun b p hp h => ?_, by decide, by decide, by decide⟩
  · rw [calculateSpeed_of_kbps b p (ne_of_gt hp), h]
    have h9 : (999 : ℚ) = ((999 : ℤ) : ℚ) := by norm_num
    rw [if_pos (by norm_num), h9, fmtF0_int]
    decide
  · rw [calculateSpeed_of_kbps b p (ne_of_gt hp), h]
    have h1 : (1000 / 1000 : ℚ) = ((1 : ℤ) : ℚ) := by norm_num
    rw [if_neg (by norm_num), h1, fmtF0_int]
    decide

/-- Witness for the C5 theorem: both threshold parts applied to concrete
byte counts over a one-second period. -/
theorem formatting_thresholds_witness :
    calculateSpeed 124875 1 = "   999 Kbits/s" ∧
      calculateSpeed 125000 1 = "     1 Mbits/s" :=
  ⟨formatting_thresholds.1 124875 1 (by norm_num) (by norm_num),
    formatting_thresholds.2.1 125000 1 (by norm_num) (by norm_num)⟩

/-- With no counter reset (`prev ≤ cur < 2^64`), the `uint64` delta is
the true delta. -/
lemma delta_mod_of_le (a b : ℕ) (hle : a ≤ b) (hlt : b < U64) :
    (b + U64 - a) % U64 = b - a := by
  simp only [U64] at *
  omega

/-- The packet rate is the exact quotient of the packet delta by the
elapsed period whenever the counters do not reset and time advances. -/
lemma calcPps_eq_div (prevR curR : record)
    (hle : prevR.total.rxPackets ≤ curR.total.rxPackets)
    (hlt : curR.total.rxPackets < U64)
    (ht : prevR.timestamp < curR.timestamp) :
    calcPps prevR curR =
      .finite (((curR.total.rxPackets - prevR.total.rxPackets : ℕ) : ℚ) /
        (curR.timestamp - prevR.timestamp)) := by
  unfold calcPps
  rw [delta_mod_of_le _ _ hle hlt, fdiv, if_neg (sub_ne_zero.mpr (ne_of_gt ht))]

/-- The BPs cell of the end-to-end example: 1000 fresh bytes over one
second is 8 Kbit/s, rendered with `%6.0f` width padding. -/
lemma calcStats_c6_BPs : (calcStats prevC6 curC6 0).BPs = "     8 Kbits/s" := by
  show calculateSpeed (((2000 + U64 - 1000) % U64 : ℕ) : ℚ) (1 - 0) = _
  have hd : (((2000 + U64 - 1000) % U64 : ℕ) : ℚ) = 1000 := by
    norm_num [U64]
  rw [hd, show (1 - 0 : ℚ) = 1 by norm_num,
    calculateSpeed_of_kbps 1000 1 (by norm_num)]
  have h : (1000 * 8 / 1 / 1000 : ℚ) = ((8 : ℤ) : ℚ) := by norm_num
  rw [h, if_pos (by norm_num), fmtF0_int]
  decide

/-- C6 counterexample: in the end-to-end example the bit-rate cell is the
width-padded `"     8 Kbits/s"`, not the exact string `"8 Kbits/s"`. -/
theorem calcStats_c6_BPs_not_unpadded :
    (calcStats prevC6 curC6 0).BPs ≠ "8 Kbits/s" := by
  rw [calcStats_c6_BPs]
  decide

/-- C6 (amended): for every period `p > 0` and non-resetting counters the
packet rate is exactly the delta over the period; in the end-to-end
example (previous `{t=0, packets=100, bytes=1000}`, current `{t=1 s,
packets=150, bytes=2000}`) the packet rate is exactly 50 packets/s and
the bit rate renders as `"     8 Kbits/s"` (8 Kbit/s with `%6.0f` width
padding). -/
theorem calcStats_rate_exact :
    (∀ prevR curR : record,
      prevR.total.rxPackets ≤ curR.total.rxPackets →
      curR.total.rxPackets < U64 →
      prevR.timestamp < curR.timestamp →
      calcPps prevR curR =
        .finite (((curR.total.rxPackets - prevR.total.rxPackets : ℕ) : ℚ) /
          (curR.timestamp - prevR.timestamp))) ∧
      calcPps (prevC6.Records 0) (curC6.Records 0) = .finite 50 ∧
      (calcStats prevC6 curC6 0).BPs = "     8 Kbits/s" := by
  refine ⟨fun prevR curR hle hlt ht => calcPps_eq_div prevR curR hle hlt ht,
    ?_, calcStats_c6_BPs⟩
  rw [calcPps_eq_div (prevC6.Records 0) (curC6.Records 0)
    (by norm_num [prevC6, curC6]) (by norm_num [curC6, U64])
    (by norm_num [prevC6, curC6])]
  show FVal.finite (((150 - 100 : ℕ) : ℚ) / ((1 : ℚ) - 0)) = _
  norm_num

/-- Witness for the C6 theorem: its universally quantified part applied
to a concrete snapshot pair (20 packets over 2 seconds). -/
theorem calcStats_rate_exact_witness :
    calcPps ⟨2, 10, 0⟩ ⟨4, 30, 0⟩ =
      .finite ((((30 : ℕ) - 10 : ℕ) : ℚ) / ((4 : ℚ) - 2)) :=
  calcStats_rate_exact.1 ⟨2, 10, 0⟩ ⟨4, 30, 0⟩ (by norm_num)
    (by norm_num [U64]) (by norm_num)

/-! ## Collection and loop lemmas -/

/-- C4 counterexample: with the map failing at key 2, `collectStats`
returns the error, yet the record the caller holds is partially updated —
slot 0 differs from its pre-collection value while slot 4 kept it — so a
failed collection is observable as a snapshot with some slots updated and
others not. -/
theorem collectStats_error_partial_record :
    ((collectStats nowsA failMap2 zeroRec).2 = some "lookup failed") ∧
      (collectStats nowsA failMap2 zeroRec).1.Records 0 ≠ zeroRec.Records 0 ∧
      (collectStats nowsA failMap2 zeroRec).1.Records 4 = zeroRec.Records 4 := by
  refine ⟨rfl, ?_, rfl⟩
  intro h
  have hts := congrArg record.timestamp h
  simp [collectStats, collectStatsAux, getMapVal, failMap2, nowsA, zeroRec,
    Function.update] at hts

/-- C4 (amended): when the lookup of slot `k` fails, `collectStats`
returns the error, but the record passed by the caller has been mutated
in place: every slot before `k` holds the fresh timestamp and per-CPU
sum, slot `k` holds the fresh timestamp with its stale totals, and every
slot after `k` is untouched. -/
theorem collectStats_partial_on_error (nows : Fin 5 → ℚ)
    (m : Fin 5 → Except String (List datarec)) (stat : StatsRecord)
    (k : Fin 5) (l : Fin 5 → List datarec) (e : String)
    (hok : ∀ i : Fin 5, i < k → m i = .ok (l i))
    (herr : m k = .error e) :
    collectStats nows m stat =
      (⟨fun i => if i < k then ⟨nows i, sumRecs (l i)⟩
        else if i = k then ⟨nows k, (stat.Records k).total⟩
        else stat.Records i⟩, some e) := by
  fin_cases k
  · have he : m 0 = .error e := herr
    simp only [collectStats, collectStatsAux, getMapVal, he]
    simp only [Prod.mk.injEq, StatsRecord.mk.injEq]
    refine ⟨?_, trivial⟩
    funext i
    fin_cases i <;> rfl
  · have h0 : m 0 = .ok (l 0) := hok 0 (by decide)
    have he : m 1 = .error e := herr
    simp only [collectStats, collectStatsAux, getMapVal, h0, he]
    simp only [Prod.mk.injEq, StatsRecord.mk.injEq]
    refine ⟨?_, trivial⟩
    funext i
    fin_cases i <;> rfl
  · have h0 : m 0 = .ok (l 0) := hok 0 (by decide)
    have h1 : m 1 = .ok (l 1) := hok 1 (by decide)
    have he : m 2 = .error e := herr
    simp only [collectStats, collectStatsAux, getMapVal, h0, h1, he]
    simp only [Prod.mk.injEq, StatsRecord.mk.injEq]
    refine ⟨?_, trivial⟩
    funext i
    fin_cases i <;> rfl
  · have h0 : m 0 = .ok (l 0) := hok 0 (by decide)
    have h1 : m 1 = .ok (l 1) := hok 1 (by decide)
    have h2 : m 2 = .ok (l 2) := hok 2 (by decide)
    have he : m 3 = .error e := herr
    simp only [collectStats, collectStatsAux, getMapVal, h0, h1, h2, he]
    simp only [Prod.mk.injEq, StatsRecord.mk.injEq]
    refine ⟨?_, trivial⟩
    funext i
    fin_cases i <;> rfl
  · have h0 : m 0 = .ok (l 0) := hok 0 (by decide)
    have h1 : m 1 = .ok (l 1) := hok 1 (by decide)
    have h2 : m 2 = .ok (l 2) := hok 2 (by decide)
    have h3 : m 3 = .ok (l 3) := hok 3 (by decide)
    have he : m 4 = .error e := herr
    simp only [collectStats, collectStatsAux, getMapVal, h0, h1, h2, h3, he]
    simp only [Prod.mk.injEq, StatsRecord.mk.injEq]
    refine ⟨?_, trivial⟩
    funext i
    fin_cases i <;> rfl

/-- Witness for the C4 theorem: applied to the concrete failing map
`failMap2` (failure at key 2), the all-zero record and the `nowsA`
instants. -/
theorem collectStats_partial_on_error_witness :
    collectStats nowsA failMap2 zeroRec =
      (⟨fun i => if i < (2 : Fin 5) then ⟨nowsA i, sumRecs [⟨2, 20⟩, ⟨3, 30⟩]⟩
        else if i = (2 : Fin 5) then ⟨nowsA 2, (zeroRec.Records 2).total⟩
        else zeroRec.Records i⟩, some "lookup failed") :=
  collectStats_partial_on_error nowsA failMap2 zeroRec 2
    (fun _ => [⟨2, 20⟩, ⟨3, 30⟩]) "lookup failed"
    (fun i hi => by fin_cases i <;> first | rfl | exact absurd hi (by decide))
    rfl

/-- Running `runLoop` over ticks only: starting with `m` snapshots consumed, the
`k`-th tick (0-based) passes the `(m+2k)`-th and `(m+2k+1)`-th collected
snapshots to `calcStats` — two fresh collections per iteration, none
retained from earlier iterations. -/
lemma runLoop_replicate (src : ℕ → StatsRecord) :
    ∀ n m : ℕ, runLoop src (List.replicate n Ev.tick) m =
      (List.range n).map fun k => (src (m + 2 * k), src (m + 2 * k + 1)) := by
  intro n
  induction n with
  | zero => intro m; simp [runLoop]
  | succ n ih =>
      intro m
      rw [List.replicate_succ]
      show (src m, src (m + 1)) :: runLoop src (List.replicate n Ev.tick) (m + 2) = _
      rw [ih (m + 2), List.range_succ_eq_map, List.map_cons, List.map_map]
      congr 1
      refine List.map_congr_left fun k _ => ?_
      show (src (m + 2 + 2 * k), src (m + 2 + 2 * k + 1)) =
        (src (m + 2 * (k + 1)), src (m + 2 * (k + 1) + 1))
      have h1 : m + 2 + 2 * k = m + 2 * (k + 1) := by ring
      rw [h1]

/-- C3 counterexample: over two ticks of the loop with snapshot stream
`srcC3`, the snapshot used as previous at the second tick is the third
collected snapshot, not the snapshot used as current at the first tick
(the second collected) — the loop retains nothing across iterations. -/
theorem tickPairs_prev_not_retained :
    ((tickPairs srcC3 [Ev.tick, Ev.tick]).getD 1 (zeroRec, zeroRec)).1 ≠
      ((tickPairs srcC3 [Ev.tick, Ev.tick]).getD 0 (zeroRec, zeroRec)).2 := by
  show srcC3 2 ≠ srcC3 1
  intro h
  have hp := congrArg (fun s => (s.Records 0).total.rxPackets) h
  simp [srcC3] at hp

/-- C3 (amended): on each tick the pair fed to the rate computation is a
snapshot collected at the top of that same iteration (as previous) and
one collected at the tick (as current): over `n` ticks, tick `k` uses the
`(2k)`-th and `(2k+1)`-th collections. No snapshot state survives an
iteration, so the previous of tick `k+1` is a collection made after tick
`k`'s current, not that current snapshot itself. -/
theorem tickPairs_fresh_each_iteration (src : ℕ → StatsRecord) (n : ℕ) :
    tickPairs src (List.replicate n Ev.tick) =
      (List.range n).map fun k => (src (2 * k), src (2 * k + 1)) := by
  unfold tickPairs
  rw [runLoop_replicate]
  simp

/-- Witness for the C3 theorem: applied to the concrete stream `srcC3`
over three ticks. -/
theorem tickPairs_fresh_each_iteration_witness :
    tickPairs srcC3 (List.replicate 3 Ev.tick) =
      (List.range 3).map fun k => (srcC3 (2 * k), srcC3 (2 * k + 1)) :=
  tickPairs_fresh_each_iteration srcC3 3

/-! ## Table shape lemmas -/

/-- Writing one cell at row `r < 6` keeps a 6-row table of 6-cell rows. -/
lemma setCell_shape (rows : List (List String)) (r c : ℕ) (v : String)
    (hlen : rows.length = 6) (h6 : ∀ row ∈ rows, row.length = 6) (hr : r < 6) :
    (setCell rows r c v).length = 6 ∧
      ∀ row ∈ setCell rows r c v, row.length = 6 := by
  constructor
  · rw [setCell, List.length_set, hlen]
  · intro row hrow
    rcases List.mem_or_eq_of_mem_set hrow with h | h
    · exact h6 row h
    · subst h
      rw [List.length_set]
      have hr' : r < rows.length := by omega
      rw [List.getD_eq_getElem rows [] hr']
      exact h6 _ (List.getElem_mem hr')

/-- Writing the six cells of data row `i + 1` keeps the 6×6 shape. -/
lemma updateRow_shape (s : stats) (i : ℕ) (rows : List (List String))
    (hi : i < 5) (hlen : rows.length = 6) (h6 : ∀ row ∈ rows, row.length = 6) :
    (updateRow s i rows).length = 6 ∧
      ∀ row ∈ updateRow s i rows, row.length = 6 := by
  have A0 := setCell_shape rows (i + 1) 0 ((action2str i).getD "") hlen h6 (by omega)
  have A1 := setCell_shape _ (i + 1) 1 s.Packets A0.1 A0.2 (by omega)
  have A2 := setCell_shape _ (i + 1) 2 s.PPs A1.1 A1.2 (by omega)
  have A3 := setCell_shape _ (i + 1) 3 s.Bytes A2.1 A2.2 (by omega)
  have A4 := setCell_shape _ (i + 1) 4 s.BPs A3.1 A3.2 (by omega)
  exact setCell_shape _ (i + 1) 5 s.Period A4.1 A4.2 (by omega)

/-- Unrolling `updateTable`: the loop writes rows 1–5 in order. -/
lemma updateTable_eq (st : Fin 5 → stats) (rows : List (List String)) :
    updateTable st rows =
      updateRow (st 4) 4 (updateRow (st 3) 3 (updateRow (st 2) 2
        (updateRow (st 1) 1 (updateRow (st 0) 0 rows)))) := by
  simp only [updateTable, List.foldl_cons, List.foldl_nil]
  rw [show ((0 : Fin 5) : ℕ) = 0 from rfl, show ((1 : Fin 5) : ℕ) = 1 from rfl,
    show ((2 : Fin 5) : ℕ) = 2 from rfl, show ((3 : Fin 5) : ℕ) = 3 from rfl,
    show ((4 : Fin 5) : ℕ) = 4 from rfl]

/-- One full `updateTable` call keeps the 6×6 shape. -/
lemma updateTable_shape (st : Fin 5 → stats) (rows : List (List String))
    (hlen : rows.length = 6) (h6 : ∀ row ∈ rows, row.length = 6) :
    (updateTable st rows).length = 6 ∧
      ∀ row ∈ updateTable st rows, row.length = 6 := by
  rw [updateTable_eq]
  have B0 := updateRow_shape (st 0) 0 rows (by omega) hlen h6
  have B1 := updateRow_shape (st 1) 1 _ (by omega) B0.1 B0.2
  have B2 := updateRow_shape (st 2) 2 _ (by omega) B1.1 B1.2
  have B3 := updateRow_shape (st 3) 3 _ (by omega) B2.1 B2.2
  exact updateRow_shape (st 4) 4 _ (by omega) B3.1 B3.2

/-- Writing a cell of a row at index at least 1 leaves the header row
(the first row) unchanged. -/
lemma setCell_head? (rows : List (List String)) (r c : ℕ) (v : String)
    (hr : 1 ≤ r) : (setCell rows r c v).head? = rows.head? := by
  unfold setCell
  cases rows with
  | nil => rfl
  | cons a as =>
      obtain ⟨n, rfl⟩ : ∃ n, r = n + 1 := ⟨r - 1, by omega⟩
      rfl

/-- Writing a data row with `updateRow` leaves the header row unchanged. -/
lemma updateRow_head? (s : stats) (i : ℕ) (rows : List (List String)) :
    (updateRow s i rows).head? = rows.head? := by
  unfold updateRow
  rw [setCell_head? _ _ _ _ (by omega), setCell_head? _ _ _ _ (by omega),
    setCell_head? _ _ _ _ (by omega), setCell_head? _ _ _ _ (by omega),
    setCell_head? _ _ _ _ (by omega), setCell_head? _ _ _ _ (by omega)]

/-- Updating the table with `updateTable` leaves the header row unchanged. -/
lemma updateTable_head? (st : Fin 5 → stats) (rows : List (List String)) :
    (updateTable st rows).head? = rows.head? := by
  rw [updateTable_eq, updateRow_head?, updateRow_head?, updateRow_head?,
    updateRow_head?, updateRow_head?]

/-- Any number of updates keeps the 6×6 shape. -/
lemma foldl_updateTable_shape (upds : List (Fin 5 → stats)) :
    ∀ rows, rows.length = 6 → (∀ row ∈ rows, row.length = 6) →
      (upds.foldl (fun acc st => updateTable st acc) rows).length = 6 ∧
        ∀ row ∈ upds.foldl (fun acc st => updateTable st acc) rows,
          row.length = 6 := by
  induction upds with
  | nil => intro rows hlen h6; exact ⟨hlen, h6⟩
  | cons u us ih =>
      intro rows hlen h6
      have h := updateTable_shape u rows hlen h6
      simp only [List.foldl_cons]
      exact ih (updateTable u rows) h.1 h.2

/-- C9: the table built in `RenderStats` is 6×6 (one header plus five
slot rows, six columns), `updateTable` writes only cells of the five data
rows — it preserves the row count, every row's cell count, and the header
row — and after any sequence of per-tick updates the table is still
6×6. -/
theorem table_always_6x6 :
    (initRows.length = 6 ∧ ∀ row ∈ initRows, row.length = 6) ∧
      (∀ (st : Fin 5 → stats) (rows : List (List String)),
        rows.length = 6 → (∀ row ∈ rows, row.length = 6) →
        (updateTable st rows).length = 6 ∧
          (∀ row ∈ updateTable st rows, row.length = 6) ∧
          (updateTable st rows).head? = rows.head?) ∧
      ∀ upds : List (Fin 5 → stats),
        (tableAfter upds).length = 6 ∧ ∀ row ∈ tableAfter upds, row.length = 6 := by
  refine ⟨⟨by decide, by decide⟩, fun st rows hlen h6 => ?_, fun upds => ?_⟩
  · obtain ⟨h1, h2⟩ := updateTable_shape st rows hlen h6
    exact ⟨h1, h2, updateTable_head? st rows⟩
  · exact foldl_updateTable_shape upds initRows (by decide) (by decide)

/-- Witness for the C9 theorem: one concrete update applied to the
initial table. -/
theorem table_always_6x6_witness :
    (updateTable updA initRows).length = 6 ∧
      (∀ row ∈ updateTable updA initRows, row.length = 6) ∧
      (updateTable updA initRows).head? = initRows.head? :=
  table_always_6x6.2.1 updA initRows (by decide) (by decide)

end NStats
